import Mathlib

/-!
Verification of the decoy-matching core of the `pseq` repository.

The embedding below mirrors `src/fasta_record.py`, `src/match_row.py` and
`src/decoy_matcher.py`.  Python instance state (`self._used`) is threaded
explicitly; fallible operations (a `header.split()[0]` that can raise, an
index lookup) are modelled with `Option`.
-/

/-- `FastaRecord` from `src/fasta_record.py`: a frozen dataclass holding a
header line and a residue sequence. -/
structure FastaRecord where
  header : String
  seq : String
deriving DecidableEq, Repr

namespace FastaRecord

/-- `FastaRecord.name`: `self.header.split()[0]`.  Python `str.split()` with
no argument splits on whitespace runs and drops empty pieces, so `[0]` is
the first maximal run of non-whitespace characters; the indexing raises on
a header with no such run, so the result is an `Option`. -/
def name (r : FastaRecord) : Option String :=
  let cs := r.header.data.dropWhile Char.isWhitespace
  if cs.isEmpty then none
  else some (String.mk (cs.takeWhile (fun c => !Char.isWhitespace c)))

end FastaRecord

/-- `DecoyMatcher._kr_count`: number of characters equal to `K` or `R`. -/
def krCount (s : String) : Nat :=
  s.data.countP (fun c => c == 'K' || c == 'R')

/-- `DecoyMatcher._k_count`. -/
def kCount (s : String) : Nat :=
  s.data.countP (fun c => c == 'K')

/-- `DecoyMatcher._r_count`. -/
def rCount (s : String) : Nat :=
  s.data.countP (fun c => c == 'R')

/-- The bucket key of a record: `(len(rec.seq), kr_count(rec.seq))`.
Search keys can go negative, so keys live in `ℤ × ℤ`. -/
def recKey (r : FastaRecord) : Int × Int :=
  ((r.seq.length : Int), (krCount r.seq : Int))

/-- The configuration part of `DecoyMatcher.__init__`: the decoy pool, the
two score weights and the two search windows.  The constructor performs no
validation whatsoever, so any field values are accepted. -/
structure DecoyMatcher where
  decoys : List FastaRecord
  len_weight : Int
  kr_weight : Int
  max_len_window : Nat
  max_kr_window : Nat
deriving DecidableEq, Repr

namespace DecoyMatcher

/-- The initial `self._used` array: one `False` per decoy. -/
def usedInit (m : DecoyMatcher) : List Bool :=
  List.replicate m.decoys.length false

/-- The bucket index `self._by_len_kr` viewed extensionally: the positions
holding key `k`, in insertion order (increasing position, since `__init__`
appends while scanning the pool in order). -/
def bucket (m : DecoyMatcher) (k : Int × Int) : List Nat :=
  (List.range m.decoys.length).filter
    (fun i => decide ((m.decoys.get? i).map recKey = some k))

/-- The inner scan `for j in reversed(idxs): if not self._used[j]: ...`:
the last-inserted still-available position in the bucket of `k`, if any. -/
def availCandidate (m : DecoyMatcher) (used : List Bool) (k : Int × Int) :
    Option Nat :=
  (m.bucket k).reverse.find? (fun j => !(used.getD j false))

/-- `DecoyMatcher._iter_search_shell`: the representative keys sampled at
split `(dL, dKR)` around `(L, kr)`. -/
def iterSearchShell (L kr : Int) (dL dKR : Nat) : List (Int × Int) :=
  if dL = 0 ∧ dKR = 0 then [(L, kr)]
  else
    (if dL = 0 then [L] else [L - (dL : Int), L + (dL : Int)]).flatMap
      (fun LL => (if dKR = 0 then [kr] else
        [kr - (dKR : Int), kr + (dKR : Int)]).map (fun KK => (LL, KK))) ++
    (if 0 < dL ∧ 0 < dKR then
      [(L - (dL : Int), kr), (L + (dL : Int), kr),
       (L, kr - (dKR : Int)), (L, kr + (dKR : Int))]
     else [])

/-- The score of a candidate key:
`len_weight * abs(key[0] - tL) + kr_weight * abs(key[1] - tkr)`. -/
def scoreOf (m : DecoyMatcher) (tL tkr : Int) (k : Int × Int) : Int :=
  m.len_weight * |k.1 - tL| + m.kr_weight * |k.2 - tkr|

/-- The running best candidate of `find_best_match`:
`best_i, best_score, best_dL, best_dKR`. -/
structure Cand where
  idx : Nat
  score : Int
  dL : Int
  dKR : Int
deriving DecidableEq, Repr

/-- Processing one generated key: look up the bucket, take the last-inserted
available position, and keep the strictly better of it and the running best
(first-seen wins ties, mirroring `score < best_score`). -/
def processKey (m : DecoyMatcher) (tL tkr : Int) (used : List Bool)
    (best : Option Cand) (k : Int × Int) : Option Cand :=
  match availCandidate m used k with
  | none => best
  | some j =>
    let s := m.scoreOf tL tkr k
    match best with
    | none => some ⟨j, s, |k.1 - tL|, |k.2 - tkr|⟩
    | some b =>
      if s < b.score then some ⟨j, s, |k.1 - tL|, |k.2 - tkr|⟩ else some b

/-- Processing every key of one `(dL, dKR)` split. -/
def processSplit (m : DecoyMatcher) (tL tkr : Int) (used : List Bool)
    (dL dKR : Nat) (best : Option Cand) : Option Cand :=
  (iterSearchShell tL tkr dL dKR).foldl (m.processKey tL tkr used) best

/-- The `dL` values enumerated at a radius:
`range(max(0, radius - max_dKR), min(max_dL, radius) + 1)` (natural
subtraction is exactly the `max(0, ·)` clamp). -/
def splitList (m : DecoyMatcher) (radius : Nat) : List Nat :=
  List.range' (radius - m.max_kr_window)
    (min m.max_len_window radius + 1 - (radius - m.max_kr_window))

/-- Processing all splits of one radius, including the
`if dKR < 0 or dKR > max_dKR: continue` guard (the `< 0` half cannot fire
over ℕ, just as it cannot fire in the source where `dL ≤ radius`). -/
def processRadius (m : DecoyMatcher) (tL tkr : Int) (used : List Bool)
    (best : Option Cand) (radius : Nat) : Option Cand :=
  (m.splitList radius).foldl
    (fun b dL =>
      if m.max_kr_window < radius - dL then b
      else m.processSplit tL tkr used dL (radius - dL) b)
    best

/-- The divisor of the early-termination bound:
`max(1, min(self.len_weight, self.kr_weight))`. -/
def earlyDivisor (m : DecoyMatcher) : Int :=
  max 1 (min m.len_weight m.kr_weight)

/-- The radius loop of `find_best_match`, with the early break
`if best_i is not None and radius > best_score // max(1, min(lw, kw))`
checked after each fully processed radius. -/
def searchLoop (m : DecoyMatcher) (tL tkr : Int) (used : List Bool) :
    List Nat → Option Cand → Option Cand
  | [], best => best
  | radius :: rest, best =>
    match m.processRadius tL tkr used best radius with
    | some b =>
      if (radius : Int) > b.score.fdiv m.earlyDivisor then some b
      else m.searchLoop tL tkr used rest (some b)
    | none => m.searchLoop tL tkr used rest none

/-- The same radius loop with the early break removed: every radius up to
`max(maxLenWindow, maxKrWindow)` is processed.  (Stated from the spec's
description of "the same search continued through every radius", for the
refinement claim about early termination.) -/
def searchLoopFull (m : DecoyMatcher) (tL tkr : Int) (used : List Bool) :
    List Nat → Option Cand → Option Cand
  | [], best => best
  | radius :: rest, best =>
    m.searchLoopFull tL tkr used rest (m.processRadius tL tkr used best radius)

/-- `DecoyMatcher.find_best_match`, with `self._used` threaded explicitly:
returns `(best_i, best_score, best_dL, best_dKR)` (or `none`) together with
the used array after the call — the source flips `self._used[best_i]`
itself, on line 121, right before returning. -/
def find_best_match (m : DecoyMatcher) (used : List Bool)
    (target : FastaRecord) : Option (Nat × Int × Int × Int) × List Bool :=
  match m.searchLoop (target.seq.length : Int) (krCount target.seq : Int) used
      (List.range (max m.max_len_window m.max_kr_window + 1)) none with
  | none => (none, used)
  | some b => (some (b.idx, b.score, b.dL, b.dKR), used.set b.idx true)

/-- The spec-side variant of the search in which the radius loop never
breaks early; everything else is identical. -/
def find_best_match_full (m : DecoyMatcher) (used : List Bool)
    (target : FastaRecord) : Option (Nat × Int × Int × Int) × List Bool :=
  match m.searchLoopFull (target.seq.length : Int) (krCount target.seq : Int)
      used (List.range (max m.max_len_window m.max_kr_window + 1)) none with
  | none => (none, used)
  | some b => (some (b.idx, b.score, b.dL, b.dKR), used.set b.idx true)

end DecoyMatcher

/-- `MatchRow` from `src/match_row.py` (all numeric fields are Python
ints). -/
structure MatchRow where
  target_name : String
  decoy_name : String
  target_len : Int
  decoy_len : Int
  target_k : Int
  target_r : Int
  decoy_k : Int
  decoy_r : Int
  target_kr : Int
  decoy_kr : Int
  len_diff : Int
  kr_diff : Int
  score : Int
deriving DecidableEq, Repr

namespace DecoyMatcher

/-- The `MatchRow(...)` construction of `match_all` (lines 138–163):
per-residue statistics of the pair plus the score returned by the search.
Evaluating `.name` on a token-less header raises, hence the `Option`. -/
def mkRow (t d : FastaRecord) (score : Int) : Option MatchRow :=
  match t.name, d.name with
  | some tn, some dn =>
    some { target_name := tn
           decoy_name := dn
           target_len := (t.seq.length : Int)
           decoy_len := (d.seq.length : Int)
           target_k := (kCount t.seq : Int)
           target_r := (rCount t.seq : Int)
           decoy_k := (kCount d.seq : Int)
           decoy_r := (rCount d.seq : Int)
           target_kr := ((kCount t.seq + rCount t.seq : Nat) : Int)
           decoy_kr := ((kCount d.seq + rCount d.seq : Nat) : Int)
           len_diff := |(t.seq.length : Int) - (d.seq.length : Int)|
           kr_diff := |((kCount t.seq + rCount t.seq : Nat) : Int) -
                       ((kCount d.seq + rCount d.seq : Nat) : Int)|
           score := score }
  | _, _ => none

/-- `DecoyMatcher.match_all` with the used array threaded: produces the
pairs, rows and unmatched lists in input order together with the final
used array, or `none` when row construction raises. -/
def match_all (m : DecoyMatcher) (used : List Bool) :
    List FastaRecord →
    Option (List (FastaRecord × FastaRecord) × List MatchRow ×
            List FastaRecord × List Bool)
  | [] => some ([], [], [], used)
  | t :: ts =>
    match m.find_best_match used t with
    | (none, used1) =>
      match m.match_all used1 ts with
      | none => none
      | some (pairs, rows, un, usedF) => some (pairs, rows, t :: un, usedF)
    | (some (i, score, _, _), used1) =>
      match m.decoys.get? i with
      | none => none
      | some d =>
        match mkRow t d score with
        | none => none
        | some row =>
          match m.match_all used1 ts with
          | none => none
          | some (pairs, rows, un, usedF) =>
            some ((t, d) :: pairs, row :: rows, un, usedF)

end DecoyMatcher

namespace DecoyMatcher

/-- Everything `find_best_match` guarantees about a tracked candidate: it
denotes a real, still-available decoy; its score is the weighted distance to
that decoy's true key; its recorded deltas are those distances; and both
deltas lie within the search windows. -/
def Good (m : DecoyMatcher) (tL tkr : Int) (used : List Bool) (b : Cand) :
    Prop :=
  ∃ d, m.decoys.get? b.idx = some d ∧ used.getD b.idx false = false ∧
    b.score = m.scoreOf tL tkr (recKey d) ∧
    b.dL = |(recKey d).1 - tL| ∧ b.dKR = |(recKey d).2 - tkr| ∧
    b.dL ≤ (m.max_len_window : Int) ∧ b.dKR ≤ (m.max_kr_window : Int)

/-- The coverage history of the loop: after the radii below `r` have been
processed, every sampled key of those radii that had an available candidate
is dominated by the running best. -/
def Cov (m : DecoyMatcher) (tL tkr : Int) (used : List Bool) (r : Nat)
    (best : Option Cand) : Prop :=
  ∀ dL dKR : Nat, dL ≤ m.max_len_window → dKR ≤ m.max_kr_window →
    dL + dKR < r →
    ∀ k ∈ iterSearchShell tL tkr dL dKR,
      (m.availCandidate used k).isSome →
      ∃ b, best = some b ∧ b.score ≤ m.scoreOf tL tkr k

/-- A row reports exactly one pair: its target statistics are those of the
pair's target and its decoy statistics those of the pair's decoy.  Relating
`rows` and `pairs` pointwise with this predicate pins each row to the pair
at the same position, so the row list inherits the pairs list's order. -/
def RowMatches (row : MatchRow) (p : FastaRecord × FastaRecord) : Prop :=
  FastaRecord.name p.1 = some row.target_name ∧
  FastaRecord.name p.2 = some row.decoy_name ∧
  row.target_len = (p.1.seq.length : Int) ∧
  row.decoy_len = (p.2.seq.length : Int) ∧
  row.target_kr = (krCount p.1.seq : Int) ∧
  row.decoy_kr = (krCount p.2.seq : Int)

end DecoyMatcher

/-! ### Concrete instances used to exercise the theorems -/

/-- A decoy of length 10 with one K and one R. -/
def decoyA : FastaRecord := ⟨"d1 first decoy", "AAAAAAAAKR"⟩

/-- A decoy of length 12 with one K and two R. -/
def decoyB : FastaRecord := ⟨"d2 second decoy", "AAAAAAAAAKRR"⟩

/-- A target with the same key as `decoyA`. -/
def targetA : FastaRecord := ⟨"t a target", "AAAAAAAAKR"⟩

/-- A target whose header holds no whitespace-delimited token. -/
def targetNoName : FastaRecord := ⟨"", "AAAAAAAAKR"⟩

/-- A matcher over two decoys with the default configuration of
`DecoyMatcher.__init__`. -/
def matcherA : DecoyMatcher := ⟨[decoyA, decoyB], 1, 10, 2000, 2000⟩

/-- A matcher over a single decoy, with small windows so an exhausted
search stays cheap to evaluate. -/
def matcherB : DecoyMatcher := ⟨[decoyA], 1, 10, 2, 3⟩

/-- A decoy at key (3, 1): one residue longer and one K richer than
`targetX`. -/
def decoyX : FastaRecord := ⟨"dx", "AAK"⟩

/-- A target at key (2, 0). -/
def targetX : FastaRecord := ⟨"tx", "AA"⟩

/-- Windows (1, 1): `decoyX` is within both windows of `targetX`, but its
combined distance 2 exceeds `max(maxLenWindow, maxKrWindow) = 1`. -/
def matcherX : DecoyMatcher := ⟨[decoyX], 1, 10, 1, 1⟩

/-- A matcher configured with both weights zero — the configuration §7 of
the spec declares invalid. -/
def matcherZ : DecoyMatcher := ⟨[decoyA, decoyB], 0, 0, 5, 5⟩

/-- The row `match_all matcherA [targetA]` produces. -/
def rowA : MatchRow :=
  ⟨"t", "d1", 10, 10, 1, 1, 1, 1, 2, 2, 0, 0, 0⟩

/-! ### Basic lemmas about counts, buckets, availability and shells -/

theorem krCount_eq (s : String) : krCount s = kCount s + rCount s := by
  unfold krCount kCount rCount
  induction s.data with
  | nil => rfl
  | cons c cs ih =>
    simp only [List.countP_cons]
    by_cases hK : c = 'K'
    · subst hK; simp [ih]; omega
    · by_cases hR : c = 'R'
      · subst hR; simp [ih]; omega
      · simp [hK, hR, ih]

namespace DecoyMatcher

theorem mem_bucket {m : DecoyMatcher} {k : Int × Int} {j : Nat} :
    j ∈ m.bucket k ↔
      j < m.decoys.length ∧ (m.decoys.get? j).map recKey = some k := by
  unfold bucket
  simp [List.mem_filter, List.mem_range]

theorem availCandidate_spec {m : DecoyMatcher} {used : List Bool}
    {k : Int × Int} {j : Nat} (h : m.availCandidate used k = some j) :
    j < m.decoys.length ∧ used.getD j false = false ∧
      (m.decoys.get? j).map recKey = some k := by
  unfold availCandidate at h
  have hmem := List.mem_of_find?_eq_some h
  have hp := List.find?_some h
  rw [List.mem_reverse, mem_bucket] at hmem
  exact ⟨hmem.1, by simpa using hp, hmem.2⟩

theorem availCandidate_isSome {m : DecoyMatcher} {used : List Bool}
    {k : Int × Int} {j : Nat} (hj : j < m.decoys.length)
    (hkey : (m.decoys.get? j).map recKey = some k)
    (hav : used.getD j false = false) :
    (m.availCandidate used k).isSome := by
  unfold availCandidate
  rw [List.find?_isSome]
  refine ⟨j, by rw [List.mem_reverse, mem_bucket]; exact ⟨hj, hkey⟩, ?_⟩
  simp only [List.getD_eq_getElem?_getD] at hav
  simp [hav]

/-- Every sampled key of a split sits at the exact corner deltas, or (for the
extra axis-aligned points, present only when both deltas are positive) at a
delta of the split in one coordinate and zero in the other. -/
theorem shell_delta {L kr : Int} {dL dKR : Nat} {k : Int × Int}
    (h : k ∈ iterSearchShell L kr dL dKR) :
    (|k.1 - L| = dL ∧ |k.2 - kr| = dKR) ∨
      (0 < dL ∧ 0 < dKR ∧
        ((|k.1 - L| = dL ∧ k.2 = kr) ∨ (k.1 = L ∧ |k.2 - kr| = dKR))) := by
  unfold iterSearchShell at h
  by_cases h00 : dL = 0 ∧ dKR = 0
  · rw [if_pos h00] at h
    simp only [List.mem_singleton] at h
    subst h
    exact Or.inl (by simp [h00.1, h00.2])
  · rw [if_neg h00] at h
    rcases List.mem_append.1 h with h1 | h2
    · left
      simp only [List.mem_flatMap, List.mem_map] at h1
      obtain ⟨LL, hLL, KK, hKK, hk⟩ := h1
      subst hk
      constructor
      · by_cases hdL : dL = 0
        · rw [if_pos hdL] at hLL
          simp only [List.mem_singleton] at hLL
          subst hLL; simp [hdL]
        · rw [if_neg hdL] at hLL
          rcases List.mem_pair.1 hLL with h | h <;> subst h <;> simp
      · by_cases hdKR : dKR = 0
        · rw [if_pos hdKR] at hKK
          simp only [List.mem_singleton] at hKK
          subst hKK; simp [hdKR]
        · rw [if_neg hdKR] at hKK
          rcases List.mem_pair.1 hKK with h | h <;> subst h <;> simp
    · right
      by_cases hpos : 0 < dL ∧ 0 < dKR
      · refine ⟨hpos.1, hpos.2, ?_⟩
        rw [if_pos hpos] at h2
        fin_cases h2 <;> simp
      · rw [if_neg hpos] at h2
        exact absurd h2 (List.not_mem_nil k)

/-- Axis-aligned extra points of a mixed split are corner points of the
corresponding pure split. -/
theorem mem_shell_axis_len {L kr : Int} {dL : Nat} {k : Int × Int}
    (hdL : 0 < dL) (h1 : |k.1 - L| = dL) (h2 : k.2 = kr) :
    k ∈ iterSearchShell L kr dL 0 := by
  unfold iterSearchShell
  rw [if_neg (by omega)]
  rcases abs_eq (by positivity : (0:Int) ≤ dL) |>.1 h1 with h | h
  · have hk : k = (L + dL, kr) :=
      Prod.ext_iff.2 ⟨show k.1 = L + (dL : Int) by linarith, h2⟩
    subst hk
    simp [Nat.pos_iff_ne_zero.1 hdL, hdL]
  · have hk : k = (L - dL, kr) :=
      Prod.ext_iff.2 ⟨show k.1 = L - (dL : Int) by linarith, h2⟩
    subst hk
    simp [Nat.pos_iff_ne_zero.1 hdL, hdL]

theorem mem_shell_axis_kr {L kr : Int} {dKR : Nat} {k : Int × Int}
    (hdKR : 0 < dKR) (h1 : k.1 = L) (h2 : |k.2 - kr| = dKR) :
    k ∈ iterSearchShell L kr 0 dKR := by
  unfold iterSearchShell
  rw [if_neg (by omega)]
  rcases abs_eq (by positivity : (0:Int) ≤ dKR) |>.1 h2 with h | h
  · have hk : k = (L, kr + dKR) :=
      Prod.ext_iff.2 ⟨h1, show k.2 = kr + (dKR : Int) by linarith⟩
    subst hk
    simp [Nat.pos_iff_ne_zero.1 hdKR, hdKR]
  · have hk : k = (L, kr - dKR) :=
      Prod.ext_iff.2 ⟨h1, show k.2 = kr - (dKR : Int) by linarith⟩
    subst hk
    simp [Nat.pos_iff_ne_zero.1 hdKR, hdKR]

/-- A key at exactly the split deltas is sampled (it is one of the corner
points). -/
theorem mem_shell_of_delta {L kr : Int} {dL dKR : Nat} {k : Int × Int}
    (h1 : |k.1 - L| = dL) (h2 : |k.2 - kr| = dKR) :
    k ∈ iterSearchShell L kr dL dKR := by
  unfold iterSearchShell
  by_cases h00 : dL = 0 ∧ dKR = 0
  · rw [if_pos h00]
    obtain ⟨ha, hb⟩ := h00
    subst ha; subst hb
    simp only [Nat.cast_zero, abs_eq_zero, sub_eq_zero] at h1 h2
    simp [List.mem_singleton, Prod.ext_iff, h1, h2]
  · rw [if_neg h00]
    refine List.mem_append.2 (Or.inl ?_)
    simp only [List.mem_flatMap, List.mem_map]
    refine ⟨k.1, ?_, k.2, ?_, rfl⟩
    · by_cases hdL : dL = 0
      · subst hdL
        simp only [Nat.cast_zero, abs_eq_zero, sub_eq_zero] at h1
        simp [h1]
      · rw [if_neg hdL]
        rcases abs_eq (by positivity : (0:Int) ≤ dL) |>.1 h1 with h | h
        · exact List.mem_pair.2 (Or.inr (by linarith))
        · exact List.mem_pair.2 (Or.inl (by linarith))
    · by_cases hdKR : dKR = 0
      · subst hdKR
        simp only [Nat.cast_zero, abs_eq_zero, sub_eq_zero] at h2
        simp [h2]
      · rw [if_neg hdKR]
        rcases abs_eq (by positivity : (0:Int) ≤ dKR) |>.1 h2 with h | h
        · exact List.mem_pair.2 (Or.inr (by linarith))
        · exact List.mem_pair.2 (Or.inl (by linarith))

theorem shell_delta_le {L kr : Int} {dL dKR : Nat} {k : Int × Int}
    (h : k ∈ iterSearchShell L kr dL dKR) :
    |k.1 - L| ≤ (dL : Int) ∧ |k.2 - kr| ≤ (dKR : Int) := by
  rcases shell_delta h with ⟨h1, h2⟩ | ⟨_, _, ⟨h1, h2⟩ | ⟨h1, h2⟩⟩
  · exact ⟨le_of_eq h1, le_of_eq h2⟩
  · exact ⟨le_of_eq h1, by simp [h2]⟩
  · exact ⟨by simp [h1], le_of_eq h2⟩

/-! ### The invariant carried by the running best candidate -/

theorem processKey_good {m : DecoyMatcher} {tL tkr : Int} {used : List Bool}
    {k : Int × Int} {best : Option Cand}
    (hk1 : |k.1 - tL| ≤ (m.max_len_window : Int))
    (hk2 : |k.2 - tkr| ≤ (m.max_kr_window : Int))
    (hbest : ∀ b0, best = some b0 → Good m tL tkr used b0) :
    ∀ b, m.processKey tL tkr used best k = some b → Good m tL tkr used b := by
  intro b hb
  unfold processKey at hb
  cases hav : m.availCandidate used k with
  | none => rw [hav] at hb; exact hbest b hb
  | some j =>
    rw [hav] at hb
    obtain ⟨hj, havj, hjk⟩ := availCandidate_spec hav
    obtain ⟨d, hd, hdk⟩ := Option.map_eq_some'.1 hjk
    have hnew : Good m tL tkr used ⟨j, m.scoreOf tL tkr k, |k.1 - tL|, |k.2 - tkr|⟩ :=
      ⟨d, hd, havj, by rw [hdk], by rw [hdk], by rw [hdk], by simpa using hk1,
        by simpa using hk2⟩
    cases best with
    | none => simp only at hb; rw [← Option.some_inj.1 hb] at *; exact hnew
    | some b0 =>
      simp only at hb
      by_cases hlt : m.scoreOf tL tkr k < b0.score
      · rw [if_pos hlt] at hb
        rw [← Option.some_inj.1 hb]; exact hnew
      · rw [if_neg hlt] at hb
        exact hbest b hb

theorem processKey_mono {m : DecoyMatcher} {tL tkr : Int} {used : List Bool}
    {k : Int × Int} (b0 : Cand) :
    ∃ b, m.processKey tL tkr used (some b0) k = some b ∧ b.score ≤ b0.score := by
  unfold processKey
  cases hav : m.availCandidate used k with
  | none => exact ⟨b0, rfl, le_refl _⟩
  | some j =>
    by_cases hlt : m.scoreOf tL tkr k < b0.score
    · exact ⟨⟨j, m.scoreOf tL tkr k, |k.1 - tL|, |k.2 - tkr|⟩,
        by simp [hlt], le_of_lt hlt⟩
    · exact ⟨b0, by simp [hlt], le_refl _⟩

theorem processKey_hit {m : DecoyMatcher} {tL tkr : Int} {used : List Bool}
    {k : Int × Int} (hav : (m.availCandidate used k).isSome) (best : Option Cand) :
    ∃ b, m.processKey tL tkr used best k = some b ∧
      b.score ≤ m.scoreOf tL tkr k := by
  obtain ⟨j, hj⟩ := Option.isSome_iff_exists.1 hav
  unfold processKey
  rw [hj]
  cases best with
  | none => exact ⟨_, rfl, le_refl _⟩
  | some b0 =>
    by_cases hlt : m.scoreOf tL tkr k < b0.score
    · exact ⟨⟨j, m.scoreOf tL tkr k, |k.1 - tL|, |k.2 - tkr|⟩,
        by simp [hlt], le_refl _⟩
    · exact ⟨b0, by simp [hlt], le_of_not_lt hlt⟩

theorem processKey_stable {m : DecoyMatcher} {tL tkr : Int} {used : List Bool}
    {k : Int × Int} (b0 : Cand)
    (h : (m.availCandidate used k).isSome → ¬ m.scoreOf tL tkr k < b0.score) :
    m.processKey tL tkr used (some b0) k = some b0 := by
  unfold processKey
  cases hav : m.availCandidate used k with
  | none => rfl
  | some j => simp [h (by rw [hav]; rfl)]

theorem processKey_none {m : DecoyMatcher} {tL tkr : Int} {used : List Bool}
    {k : Int × Int} {best : Option Cand}
    (h : m.processKey tL tkr used best k = none) : best = none := by
  unfold processKey at h
  cases hav : m.availCandidate used k with
  | none => rw [hav] at h; exact h
  | some j =>
    rw [hav] at h
    cases best with
    | none => rfl
    | some b0 =>
      by_cases hlt : m.scoreOf tL tkr k < b0.score <;> simp [hlt] at h

/-! ### Generic lemmas about folding an optional best candidate -/

theorem foldl_opt_good {α : Type} (f : Option Cand → α → Option Cand)
    (P : Cand → Prop) :
    ∀ (l : List α),
      (∀ a ∈ l, ∀ best b, (∀ b0, best = some b0 → P b0) →
        f best a = some b → P b) →
      ∀ best, (∀ b0, best = some b0 → P b0) →
      ∀ b, l.foldl f best = some b → P b := by
  intro l
  induction l with
  | nil => intro _ best hbest b hb; exact hbest b hb
  | cons a l ih =>
    intro hf best hbest b hb
    exact ih (fun a' ha' => hf a' (List.mem_cons_of_mem a ha')) (f best a)
      (hf a (List.mem_cons_self a l) best · hbest) b hb

theorem foldl_opt_mono {α : Type} (f : Option Cand → α → Option Cand) :
    ∀ (l : List α),
      (∀ a ∈ l, ∀ b0 : Cand, ∃ b, f (some b0) a = some b ∧ b.score ≤ b0.score) →
      ∀ b0 : Cand, ∃ b, l.foldl f (some b0) = some b ∧ b.score ≤ b0.score := by
  intro l
  induction l with
  | nil => intro _ b0; exact ⟨b0, rfl, le_refl _⟩
  | cons a l ih =>
    intro hf b0
    obtain ⟨b1, hb1, hle1⟩ := hf a (List.mem_cons_self a l) b0
    obtain ⟨b, hb, hle⟩ := ih (fun a' ha' => hf a' (List.mem_cons_of_mem a ha')) b1
    exact ⟨b, by rw [List.foldl_cons, hb1]; exact hb, le_trans hle hle1⟩

theorem foldl_opt_hit {α : Type} (f : Option Cand → α → Option Cand) (s : Int) :
    ∀ (l : List α),
      (∀ a ∈ l, ∀ b0 : Cand, ∃ b, f (some b0) a = some b ∧ b.score ≤ b0.score) →
      ∀ a0 ∈ l, (∀ best, ∃ b, f best a0 = some b ∧ b.score ≤ s) →
      ∀ best, ∃ b, l.foldl f best = some b ∧ b.score ≤ s := by
  intro l
  induction l with
  | nil => intro _ a0 ha0; exact absurd ha0 (List.not_mem_nil a0)
  | cons a l ih =>
    intro hmono a0 ha0 hhit best
    rcases List.mem_cons.1 ha0 with rfl | ha0
    · obtain ⟨b1, hb1, hle1⟩ := hhit best
      obtain ⟨b, hb, hle⟩ :=
        foldl_opt_mono f l (fun a' ha' => hmono a' (List.mem_cons_of_mem a0 ha')) b1
      exact ⟨b, by rw [List.foldl_cons, hb1]; exact hb, le_trans hle hle1⟩
    · exact ih (fun a' ha' => hmono a' (List.mem_cons_of_mem a ha')) a0 ha0 hhit
        (f best a)

theorem foldl_opt_stable {α : Type} (f : Option Cand → α → Option Cand)
    (b : Cand) :
    ∀ (l : List α), (∀ a ∈ l, f (some b) a = some b) →
      l.foldl f (some b) = some b := by
  intro l
  induction l with
  | nil => intro _; rfl
  | cons a l ih =>
    intro hf
    rw [List.foldl_cons, hf a (List.mem_cons_self a l)]
    exact ih (fun a' ha' => hf a' (List.mem_cons_of_mem a ha'))

theorem foldl_opt_none {α : Type} (f : Option Cand → α → Option Cand)
    (hf : ∀ best a, f best a = none → best = none) :
    ∀ (l : List α) (best), l.foldl f best = none → best = none := by
  intro l
  induction l with
  | nil => intro best h; exact h
  | cons a l ih =>
    intro best h
    exact hf best a (ih (f best a) h)

/-! ### Lifting the key lemmas to splits -/

theorem processSplit_good {m : DecoyMatcher} {tL tkr : Int} {used : List Bool}
    {dL dKR : Nat} {best : Option Cand}
    (hdL : dL ≤ m.max_len_window) (hdKR : dKR ≤ m.max_kr_window)
    (hbest : ∀ b0, best = some b0 → Good m tL tkr used b0) :
    ∀ b, m.processSplit tL tkr used dL dKR best = some b →
      Good m tL tkr used b := by
  unfold processSplit
  refine foldl_opt_good _ _ _ ?_ best hbest
  intro k hk best' b hbest' hb
  have hd := shell_delta_le hk
  exact processKey_good
    (le_trans hd.1 (by exact_mod_cast Nat.cast_le.2 hdL))
    (le_trans hd.2 (by exact_mod_cast Nat.cast_le.2 hdKR)) hbest' b hb

theorem processSplit_mono (m : DecoyMatcher) (tL tkr : Int) (used : List Bool)
    (dL dKR : Nat) (b0 : Cand) :
    ∃ b, m.processSplit tL tkr used dL dKR (some b0) = some b ∧
      b.score ≤ b0.score :=
  foldl_opt_mono _ _ (fun _ _ b1 => processKey_mono b1) b0

theorem processSplit_hit {m : DecoyMatcher} {tL tkr : Int} {used : List Bool}
    {dL dKR : Nat} {k0 : Int × Int}
    (hk0 : k0 ∈ iterSearchShell tL tkr dL dKR)
    (hav : (m.availCandidate used k0).isSome) (best : Option Cand) :
    ∃ b, m.processSplit tL tkr used dL dKR best = some b ∧
      b.score ≤ m.scoreOf tL tkr k0 :=
  foldl_opt_hit _ _ _ (fun _ _ b1 => processKey_mono b1) k0 hk0
    (fun best' => processKey_hit hav best') best

theorem processSplit_stable {m : DecoyMatcher} {tL tkr : Int} {used : List Bool}
    {dL dKR : Nat} (b0 : Cand)
    (h : ∀ k ∈ iterSearchShell tL tkr dL dKR,
      (m.availCandidate used k).isSome → ¬ m.scoreOf tL tkr k < b0.score) :
    m.processSplit tL tkr used dL dKR (some b0) = some b0 :=
  foldl_opt_stable _ b0 _ (fun k hk => processKey_stable b0 (h k hk))

theorem processSplit_none {m : DecoyMatcher} {tL tkr : Int} {used : List Bool}
    {dL dKR : Nat} {best : Option Cand}
    (h : m.processSplit tL tkr used dL dKR best = none) : best = none :=
  foldl_opt_none _ (fun _ _ => processKey_none) _ best h

/-! ### Lifting to radii -/

theorem splitList_mem {m : DecoyMatcher} {radius dL : Nat} :
    dL ∈ m.splitList radius ↔
      radius - m.max_kr_window ≤ dL ∧ dL ≤ min m.max_len_window radius := by
  unfold splitList
  rw [List.mem_range'_1]
  omega

theorem processRadius_good {m : DecoyMatcher} {tL tkr : Int} {used : List Bool}
    {radius : Nat} {best : Option Cand}
    (hbest : ∀ b0, best = some b0 → Good m tL tkr used b0) :
    ∀ b, m.processRadius tL tkr used best radius = some b →
      Good m tL tkr used b := by
  unfold processRadius
  refine foldl_opt_good _ _ _ ?_ best hbest
  intro dL hdL best' b hbest' hb
  by_cases hg : m.max_kr_window < radius - dL
  · rw [if_pos hg] at hb; exact hbest' b hb
  · rw [if_neg hg] at hb
    exact processSplit_good (le_trans (splitList_mem.1 hdL).2 (min_le_left _ _))
      (le_of_not_lt hg) hbest' b hb

theorem processRadius_mono (m : DecoyMatcher) (tL tkr : Int) (used : List Bool)
    (radius : Nat) (b0 : Cand) :
    ∃ b, m.processRadius tL tkr used (some b0) radius = some b ∧
      b.score ≤ b0.score := by
  unfold processRadius
  refine foldl_opt_mono _ _ ?_ b0
  intro dL _ b1
  by_cases hg : m.max_kr_window < radius - dL
  · exact ⟨b1, by rw [if_pos hg], le_refl _⟩
  · obtain ⟨b, hb, hle⟩ := processSplit_mono m tL tkr used dL (radius - dL) b1
    exact ⟨b, by rw [if_neg hg]; exact hb, hle⟩

theorem processRadius_hit {m : DecoyMatcher} {tL tkr : Int} {used : List Bool}
    {radius dL0 dKR0 : Nat} {k0 : Int × Int}
    (h1 : dL0 ≤ m.max_len_window) (h2 : dKR0 ≤ m.max_kr_window)
    (hr : dL0 + dKR0 = radius)
    (hk0 : k0 ∈ iterSearchShell tL tkr dL0 dKR0)
    (hav : (m.availCandidate used k0).isSome) (best : Option Cand) :
    ∃ b, m.processRadius tL tkr used best radius = some b ∧
      b.score ≤ m.scoreOf tL tkr k0 := by
  unfold processRadius
  refine foldl_opt_hit _ _ _ ?_ dL0 (splitList_mem.2 ⟨by omega, by omega⟩) ?_ best
  · intro dL _ b1
    by_cases hg : m.max_kr_window < radius - dL
    · exact ⟨b1, by rw [if_pos hg], le_refl _⟩
    · obtain ⟨b, hb, hle⟩ := processSplit_mono m tL tkr used dL (radius - dL) b1
      exact ⟨b, by rw [if_neg hg]; exact hb, hle⟩
  · intro best'
    have hg : ¬ m.max_kr_window < radius - dL0 := by omega
    have hd : radius - dL0 = dKR0 := by omega
    obtain ⟨b, hb, hle⟩ := processSplit_hit (hd ▸ hk0) hav best'
    exact ⟨b, by rw [if_neg hg]; exact hb, hle⟩

theorem processRadius_stable {m : DecoyMatcher} {tL tkr : Int}
    {used : List Bool} {radius : Nat} (b0 : Cand)
    (h : ∀ dL, dL ≤ m.max_len_window → dL ≤ radius →
      radius - dL ≤ m.max_kr_window →
      ∀ k ∈ iterSearchShell tL tkr dL (radius - dL),
        (m.availCandidate used k).isSome → ¬ m.scoreOf tL tkr k < b0.score) :
    m.processRadius tL tkr used (some b0) radius = some b0 := by
  unfold processRadius
  refine foldl_opt_stable _ b0 _ ?_
  intro dL hdL
  by_cases hg : m.max_kr_window < radius - dL
  · rw [if_pos hg]
  · rw [if_neg hg]
    exact processSplit_stable b0
      (h dL (le_trans (splitList_mem.1 hdL).2 (min_le_left _ _))
        (le_trans (splitList_mem.1 hdL).2 (min_le_right _ _)) (by omega))

theorem processRadius_none {m : DecoyMatcher} {tL tkr : Int} {used : List Bool}
    {radius : Nat} {best : Option Cand}
    (h : m.processRadius tL tkr used best radius = none) : best = none := by
  unfold processRadius at h
  refine foldl_opt_none _ ?_ _ best h
  intro best' dL hb
  by_cases hg : m.max_kr_window < radius - dL
  · rw [if_pos hg] at hb; exact hb
  · rw [if_neg hg] at hb; exact processSplit_none hb

/-! ### The radius loop -/

theorem searchLoop_nil {m : DecoyMatcher} {tL tkr : Int} {used : List Bool}
    {best : Option Cand} : m.searchLoop tL tkr used [] best = best := rfl

theorem searchLoop_cons {m : DecoyMatcher} {tL tkr : Int} {used : List Bool}
    {r : Nat} {rest : List Nat} {best : Option Cand} :
    m.searchLoop tL tkr used (r :: rest) best =
      match m.processRadius tL tkr used best r with
      | some b =>
        if (r : Int) > b.score.fdiv m.earlyDivisor then some b
        else m.searchLoop tL tkr used rest (some b)
      | none => m.searchLoop tL tkr used rest none := rfl

theorem searchLoopFull_nil {m : DecoyMatcher} {tL tkr : Int} {used : List Bool}
    {best : Option Cand} : m.searchLoopFull tL tkr used [] best = best := rfl

theorem searchLoopFull_cons {m : DecoyMatcher} {tL tkr : Int}
    {used : List Bool} {r : Nat} {rest : List Nat} {best : Option Cand} :
    m.searchLoopFull tL tkr used (r :: rest) best =
      m.searchLoopFull tL tkr used rest
        (m.processRadius tL tkr used best r) := rfl

theorem searchLoop_good {m : DecoyMatcher} {tL tkr : Int} {used : List Bool} :
    ∀ (radii : List Nat) (best : Option Cand),
      (∀ b0, best = some b0 → Good m tL tkr used b0) →
      ∀ b, m.searchLoop tL tkr used radii best = some b →
        Good m tL tkr used b := by
  intro radii
  induction radii with
  | nil => intro best hbest b hb; exact hbest b hb
  | cons r rest ih =>
    intro best hbest b hb
    rw [searchLoop_cons] at hb
    cases hpr : m.processRadius tL tkr used best r with
    | some b1 =>
      rw [hpr] at hb
      have hb' : (if (r : Int) > b1.score.fdiv m.earlyDivisor then some b1
          else m.searchLoop tL tkr used rest (some b1)) = some b := hb
      have hg1 : ∀ b0, (some b1 : Option Cand) = some b0 → Good m tL tkr used b0 := by
        intro b0 h0
        exact processRadius_good hbest b0 (by rw [← Option.some_inj.1 h0]; exact hpr)
      by_cases hstop : (r : Int) > b1.score.fdiv m.earlyDivisor
      · rw [if_pos hstop] at hb'
        exact hg1 b hb'
      · rw [if_neg hstop] at hb'
        exact ih (some b1) hg1 b hb'
    | none =>
      rw [hpr] at hb
      have hb' : m.searchLoop tL tkr used rest none = some b := hb
      exact ih none (by intro b0 h0; cases h0) b hb'

theorem searchLoop_mono (m : DecoyMatcher) (tL tkr : Int) (used : List Bool) :
    ∀ (radii : List Nat) (b0 : Cand),
      ∃ b, m.searchLoop tL tkr used radii (some b0) = some b ∧
        b.score ≤ b0.score := by
  intro radii
  induction radii with
  | nil => intro b0; exact ⟨b0, rfl, le_refl _⟩
  | cons r rest ih =>
    intro b0
    obtain ⟨b1, hb1, hle1⟩ := processRadius_mono m tL tkr used r b0
    by_cases hstop : (r : Int) > b1.score.fdiv m.earlyDivisor
    · exact ⟨b1, by rw [searchLoop_cons, hb1]; simp [hstop], hle1⟩
    · obtain ⟨b, hb, hle⟩ := ih b1
      exact ⟨b, by rw [searchLoop_cons, hb1]; simp only [hstop, if_neg,
        gt_iff_lt, not_false_iff]; simpa [hstop] using hb, le_trans hle hle1⟩

theorem searchLoop_isSome {m : DecoyMatcher} {tL tkr : Int} {used : List Bool}
    {radii : List Nat} (b0 : Cand) :
    (m.searchLoop tL tkr used radii (some b0)).isSome := by
  obtain ⟨b, hb, _⟩ := searchLoop_mono m tL tkr used radii b0
  rw [hb]; rfl

theorem searchLoop_hit_isSome {m : DecoyMatcher} {tL tkr : Int}
    {used : List Bool} {dL0 dKR0 : Nat} {k0 : Int × Int}
    (h1 : dL0 ≤ m.max_len_window) (h2 : dKR0 ≤ m.max_kr_window)
    (hk0 : k0 ∈ iterSearchShell tL tkr dL0 dKR0)
    (hav : (m.availCandidate used k0).isSome) :
    ∀ (radii : List Nat) (best : Option Cand), dL0 + dKR0 ∈ radii →
      (m.searchLoop tL tkr used radii best).isSome := by
  intro radii
  induction radii with
  | nil => intro best h; cases h
  | cons r rest ih =>
    intro best hmem
    rw [searchLoop_cons]
    cases hpr : m.processRadius tL tkr used best r with
    | some b1 =>
      show (if (r : Int) > b1.score.fdiv m.earlyDivisor then some b1
        else m.searchLoop tL tkr used rest (some b1)).isSome
      by_cases hstop : (r : Int) > b1.score.fdiv m.earlyDivisor
      · rw [if_pos hstop]; rfl
      · rw [if_neg hstop]
        exact searchLoop_isSome b1
    | none =>
      show (m.searchLoop tL tkr used rest none).isSome
      rcases List.mem_cons.1 hmem with h | h
      · exfalso
        obtain ⟨b, hb, _⟩ := processRadius_hit h1 h2 h hk0 hav best
        rw [hpr] at hb
        cases hb
      · exact ih none h

theorem searchLoop_hit_head {m : DecoyMatcher} {tL tkr : Int}
    {used : List Bool} {dL0 dKR0 r : Nat} {rest : List Nat} {k0 : Int × Int}
    (h1 : dL0 ≤ m.max_len_window) (h2 : dKR0 ≤ m.max_kr_window)
    (hr : dL0 + dKR0 = r)
    (hk0 : k0 ∈ iterSearchShell tL tkr dL0 dKR0)
    (hav : (m.availCandidate used k0).isSome) (best : Option Cand) :
    ∃ b, m.searchLoop tL tkr used (r :: rest) best = some b ∧
      b.score ≤ m.scoreOf tL tkr k0 := by
  obtain ⟨b1, hb1, hle1⟩ := processRadius_hit h1 h2 hr hk0 hav best
  rw [searchLoop_cons, hb1]
  show ∃ b, (if (r : Int) > b1.score.fdiv m.earlyDivisor then some b1
    else m.searchLoop tL tkr used rest (some b1)) = some b ∧
    b.score ≤ m.scoreOf tL tkr k0
  by_cases hstop : (r : Int) > b1.score.fdiv m.earlyDivisor
  · exact ⟨b1, by rw [if_pos hstop], hle1⟩
  · obtain ⟨b, hb, hle⟩ := searchLoop_mono m tL tkr used rest b1
    exact ⟨b, by rw [if_neg hstop]; exact hb, le_trans hle hle1⟩

/-! ### Facts about one call of `find_best_match` -/

/-- Everything a successful search reports is truthful: the winner denotes a
real, available decoy, the reported score and deltas are the weighted and
plain distances to that decoy's actual key, both deltas lie within the
windows, and the used flag of the winner (and only that flag) is set. -/
theorem find_best_match_some {m : DecoyMatcher} {used : List Bool}
    {t : FastaRecord} {i : Nat} {s a b : Int}
    (h : (m.find_best_match used t).1 = some (i, s, a, b)) :
    ∃ d, m.decoys.get? i = some d ∧ used.getD i false = false ∧
      s = m.scoreOf (t.seq.length : Int) (krCount t.seq : Int) (recKey d) ∧
      a = |(recKey d).1 - (t.seq.length : Int)| ∧
      b = |(recKey d).2 - (krCount t.seq : Int)| ∧
      a ≤ (m.max_len_window : Int) ∧ b ≤ (m.max_kr_window : Int) ∧
      (m.find_best_match used t).2 = used.set i true := by
  unfold find_best_match at h ⊢
  cases hsl : m.searchLoop (t.seq.length : Int) (krCount t.seq : Int) used
      (List.range (max m.max_len_window m.max_kr_window + 1)) none with
  | none =>
    rw [hsl] at h
    cases h
  | some b0 =>
    rw [hsl] at h
    have h' : (some (b0.idx, b0.score, b0.dL, b0.dKR) :
        Option (Nat × Int × Int × Int)) = some (i, s, a, b) := h
    obtain ⟨hi, hs, ha, hb⟩ : b0.idx = i ∧ b0.score = s ∧ b0.dL = a ∧ b0.dKR = b := by
      have := Option.some_inj.1 h'
      exact ⟨congrArg (·.1) this, congrArg (·.2.1) this,
        congrArg (·.2.2.1) this, congrArg (·.2.2.2) this⟩
    have hgood : Good m (t.seq.length : Int) (krCount t.seq : Int) used b0 :=
      searchLoop_good _ none (by intro b0 h0; cases h0) b0 hsl
    obtain ⟨d, hd, hav, hsc, hdl, hdkr, hbl, hbk⟩ := hgood
    refine ⟨d, by rw [← hi]; exact hd, by rw [← hi]; exact hav,
      by rw [← hs]; exact hsc, by rw [← ha]; exact hdl,
      by rw [← hb]; exact hdkr, by rw [← ha]; exact hbl,
      by rw [← hb]; exact hbk, ?_⟩
    show used.set b0.idx true = used.set i true
    rw [hi]

/-- Completeness up to the radius bound of the loop: an available decoy
whose key deltas fit both windows and whose combined delta does not exceed
`max(maxLenWindow, maxKrWindow)` forces the search to report a winner. -/
theorem find_best_match_isSome {m : DecoyMatcher} {used : List Bool}
    {t : FastaRecord} {j : Nat} {d : FastaRecord}
    (hj : m.decoys.get? j = some d) (hav : used.getD j false = false)
    (h1 : ((recKey d).1 - (t.seq.length : Int)).natAbs ≤ m.max_len_window)
    (h2 : ((recKey d).2 - (krCount t.seq : Int)).natAbs ≤ m.max_kr_window)
    (h3 : ((recKey d).1 - (t.seq.length : Int)).natAbs +
          ((recKey d).2 - (krCount t.seq : Int)).natAbs ≤
            max m.max_len_window m.max_kr_window) :
    (m.find_best_match used t).1 ≠ none := by
  have hjlen : j < m.decoys.length := by
    rcases List.get?_eq_some.1 hj with ⟨hlt, _⟩
    exact hlt
  have hk0 : recKey d ∈ iterSearchShell (t.seq.length : Int)
      (krCount t.seq : Int) ((recKey d).1 - (t.seq.length : Int)).natAbs
      ((recKey d).2 - (krCount t.seq : Int)).natAbs :=
    mem_shell_of_delta (by rw [Int.abs_eq_natAbs]) (by rw [Int.abs_eq_natAbs])
  have hav' : (m.availCandidate used (recKey d)).isSome :=
    availCandidate_isSome hjlen (by rw [hj]; rfl) hav
  have hmem : ((recKey d).1 - (t.seq.length : Int)).natAbs +
      ((recKey d).2 - (krCount t.seq : Int)).natAbs ∈
      List.range (max m.max_len_window m.max_kr_window + 1) :=
    List.mem_range.2 (by omega)
  have hsome := searchLoop_hit_isSome h1 h2 hk0 hav'
    (List.range (max m.max_len_window m.max_kr_window + 1)) none hmem
  unfold find_best_match
  cases hsl : m.searchLoop (t.seq.length : Int) (krCount t.seq : Int) used
      (List.range (max m.max_len_window m.max_kr_window + 1)) none with
  | none => rw [hsl] at hsome; cases hsome
  | some b0 => simp

/-- A failed search leaves the used array untouched. -/
theorem find_best_match_none {m : DecoyMatcher} {used : List Bool}
    {t : FastaRecord} (h : (m.find_best_match used t).1 = none) :
    (m.find_best_match used t).2 = used := by
  unfold find_best_match at h ⊢
  cases hsl : m.searchLoop (t.seq.length : Int) (krCount t.seq : Int) used
      (List.range (max m.max_len_window m.max_kr_window + 1)) none with
  | none => rfl
  | some b0 =>
    rw [hsl] at h
    cases h

theorem scoreOf_nonneg {m : DecoyMatcher} {tL tkr : Int} {k : Int × Int}
    (hlw : 0 ≤ m.len_weight) (hkw : 0 ≤ m.kr_weight) :
    0 ≤ m.scoreOf tL tkr k :=
  add_nonneg (mul_nonneg hlw (abs_nonneg _)) (mul_nonneg hkw (abs_nonneg _))

theorem scoreOf_eq_zero {m : DecoyMatcher} {tL tkr : Int} {k : Int × Int}
    (hlw : 0 < m.len_weight) (hkw : 0 < m.kr_weight)
    (h : m.scoreOf tL tkr k = 0) : k = (tL, tkr) := by
  unfold scoreOf at h
  have h1 : |k.1 - tL| = 0 := by
    have ha := abs_nonneg (k.1 - tL)
    have hb := abs_nonneg (k.2 - tkr)
    nlinarith
  have h2 : |k.2 - tkr| = 0 := by
    have ha := abs_nonneg (k.1 - tL)
    have hb := abs_nonneg (k.2 - tkr)
    nlinarith
  rw [abs_eq_zero, sub_eq_zero] at h1 h2
  exact Prod.ext_iff.2 ⟨h1, h2⟩

/-- Exact-match preference: an available decoy holding exactly the target's
key forces a winner with score 0 whose decoy holds exactly the target's key
(for positive weights). -/
theorem find_best_match_exact {m : DecoyMatcher} {used : List Bool}
    {t : FastaRecord} {j : Nat} {d : FastaRecord}
    (hlw : 0 < m.len_weight) (hkw : 0 < m.kr_weight)
    (hj : m.decoys.get? j = some d) (hav : used.getD j false = false)
    (hkey : recKey d = ((t.seq.length : Int), (krCount t.seq : Int))) :
    ∃ i, (m.find_best_match used t).1 = some (i, 0, 0, 0) ∧
      ∃ d2, m.decoys.get? i = some d2 ∧
        recKey d2 = ((t.seq.length : Int), (krCount t.seq : Int)) := by
  have hjlen : j < m.decoys.length := by
    rcases List.get?_eq_some.1 hj with ⟨hlt, _⟩
    exact hlt
  have hav' : (m.availCandidate used
      ((t.seq.length : Int), (krCount t.seq : Int))).isSome :=
    availCandidate_isSome hjlen (by rw [hj]; simp [hkey]) hav
  have hk0 : ((t.seq.length : Int), (krCount t.seq : Int)) ∈
      iterSearchShell (t.seq.length : Int) (krCount t.seq : Int) 0 0 :=
    mem_shell_of_delta (by simp) (by simp)
  have hradii : List.range (max m.max_len_window m.max_kr_window + 1) =
      0 :: List.range' 1 (max m.max_len_window m.max_kr_window) := by
    rw [List.range_eq_range']
    rfl
  obtain ⟨b, hb, hble⟩ := @searchLoop_hit_head m (t.seq.length : Int)
    (krCount t.seq : Int) used 0 0 0
    (List.range' 1 (max m.max_len_window m.max_kr_window))
    ((t.seq.length : Int), (krCount t.seq : Int))
    (Nat.zero_le _) (Nat.zero_le _) rfl hk0 hav' none
  have hble0 : b.score ≤ 0 := by
    simpa [scoreOf] using hble
  have hgood : Good m (t.seq.length : Int) (krCount t.seq : Int) used b :=
    searchLoop_good (List.range (max m.max_len_window m.max_kr_window + 1))
      none (by intro b0 h0; cases h0) b (by rw [hradii]; exact hb)
  obtain ⟨d2, hd2, hav2, hsc2, hdl2, hdkr2, _, _⟩ := hgood
  have hge0 : 0 ≤ b.score := by
    rw [hsc2]
    exact scoreOf_nonneg (le_of_lt hlw) (le_of_lt hkw)
  have hs0 : b.score = 0 := le_antisymm hble0 hge0
  have hkey2 : recKey d2 = ((t.seq.length : Int), (krCount t.seq : Int)) :=
    scoreOf_eq_zero hlw hkw (by rw [← hsc2]; exact hs0)
  refine ⟨b.idx, ?_, d2, hd2, hkey2⟩
  unfold find_best_match
  rw [hradii, hb]
  show some (b.idx, b.score, b.dL, b.dKR) = some (b.idx, 0, 0, 0)
  rw [hs0, hdl2, hdkr2, hkey2]
  simp

/-! ### Step facts about one call inside `match_all` -/

theorem find_best_match_step {m : DecoyMatcher} {used used1 : List Bool}
    {t : FastaRecord} {res : Option (Nat × Int × Int × Int)}
    (hf : m.find_best_match used t = (res, used1)) :
    (res = none → used1 = used) ∧
    (∀ i s a b, res = some (i, s, a, b) →
      i < m.decoys.length ∧ used.getD i false = false ∧
      used1 = used.set i true) := by
  constructor
  · intro h0
    have h1 : (m.find_best_match used t).1 = none := by rw [hf, h0]
    have h2 := find_best_match_none h1
    rw [hf] at h2
    exact h2
  · intro i s a b h0
    have h1 : (m.find_best_match used t).1 = some (i, s, a, b) := by
      rw [hf, h0]
    obtain ⟨d, hd, hav, _, _, _, _, _, hset⟩ := find_best_match_some h1
    rw [hf] at hset
    refine ⟨?_, hav, hset⟩
    rcases List.get?_eq_some.1 hd with ⟨hlt, _⟩
    exact hlt

theorem match_all_cons_none {m : DecoyMatcher} {used used1 : List Bool}
    {t : FastaRecord} {ts : List FastaRecord}
    (hf : m.find_best_match used t = (none, used1)) :
    m.match_all used (t :: ts) =
      match m.match_all used1 ts with
      | none => none
      | some (pairs, rows, un, usedF) => some (pairs, rows, t :: un, usedF) := by
  simp only [match_all]
  rw [hf]

theorem match_all_cons_some {m : DecoyMatcher} {used used1 : List Bool}
    {t : FastaRecord} {ts : List FastaRecord} {i : Nat} {s a b : Int}
    (hf : m.find_best_match used t = (some (i, s, a, b), used1)) :
    m.match_all used (t :: ts) =
      match m.decoys.get? i with
      | none => none
      | some d =>
        match mkRow t d s with
        | none => none
        | some row =>
          match m.match_all used1 ts with
          | none => none
          | some (pairs, rows, un, usedF) =>
            some ((t, d) :: pairs, row :: rows, un, usedF) := by
  simp only [match_all]
  rw [hf]

/-- A successful `MatchRow` construction reports exactly the statistics of
its two records. -/
theorem mkRow_spec {t d : FastaRecord} {s : Int} {row : MatchRow}
    (h : mkRow t d s = some row) :
    row.score = s ∧
    row.target_len = (t.seq.length : Int) ∧
    row.decoy_len = (d.seq.length : Int) ∧
    row.target_kr = (krCount t.seq : Int) ∧
    row.decoy_kr = (krCount d.seq : Int) ∧
    row.len_diff = |row.target_len - row.decoy_len| ∧
    row.kr_diff = |row.target_kr - row.decoy_kr| ∧
    t.name = some row.target_name ∧
    d.name = some row.decoy_name := by
  unfold mkRow at h
  cases ht : t.name with
  | none => rw [ht] at h; cases h
  | some tn =>
    cases hd : d.name with
    | none => rw [ht, hd] at h; cases h
    | some dn =>
      rw [ht, hd] at h
      rw [← Option.some_inj.1 h]
      refine ⟨rfl, rfl, rfl, ?_, ?_, rfl, rfl, rfl, rfl⟩
      · show ((kCount t.seq + rCount t.seq : Nat) : Int) = (krCount t.seq : Int)
        rw [krCount_eq]
      · show ((kCount d.seq + rCount d.seq : Nat) : Int) = (krCount d.seq : Int)
        rw [krCount_eq]

theorem mkRow_none_left {t d : FastaRecord} {s : Int} (h : t.name = none) :
    mkRow t d s = none := by
  unfold mkRow
  rw [h]

theorem mkRow_none_right {t d : FastaRecord} {s : Int} (h : d.name = none) :
    mkRow t d s = none := by
  unfold mkRow
  rw [h]
  cases t.name <;> rfl

theorem set_true_getD_mono {used : List Bool} {i j : Nat}
    (h : used.getD j false = true) : (used.set i true).getD j false = true := by
  rw [List.getD_eq_getElem?_getD] at h ⊢
  rw [List.getElem?_set]
  by_cases hij : i = j
  · subst hij
    by_cases hlt : i < used.length
    · simp [hlt]
    · exfalso
      rw [List.getElem?_eq_none (by omega)] at h
      simp at h
  · simp only [hij, if_false]
    exact h

theorem count_set_true {used : List Bool} {i : Nat} (hlt : i < used.length)
    (hfalse : used.getD i false = false) :
    (used.set i true).count true = used.count true + 1 := by
  have hgi : used[i] = false := by
    have hge := List.getElem?_eq_getElem hlt
    rw [List.getD_eq_getElem?_getD, hge] at hfalse
    simpa using hfalse
  rw [List.count_set true true used i hlt]
  simp [hgi]

/-! ### The run-level facts of `match_all` -/

/-- One induction carrying every per-run invariant: conservation with order
preservation, window respect of every committed pair, score correctness of
every row, and monotone single-flip evolution of the used flags. -/
theorem match_all_spec (m : DecoyMatcher) :
    ∀ (ts : List FastaRecord) (used : List Bool),
      used.length = m.decoys.length →
      ∀ pairs rows un usedF,
      m.match_all used ts = some (pairs, rows, un, usedF) →
      pairs.length + un.length = ts.length ∧
      rows.length = pairs.length ∧
      (pairs.map Prod.fst).Sublist ts ∧
      un.Sublist ts ∧
      (∀ t', (pairs.map Prod.fst).count t' + un.count t' = ts.count t') ∧
      (∀ p ∈ pairs,
        |(p.2.seq.length : Int) - (p.1.seq.length : Int)| ≤
          (m.max_len_window : Int) ∧
        |(krCount p.2.seq : Int) - (krCount p.1.seq : Int)| ≤
          (m.max_kr_window : Int)) ∧
      (∀ row ∈ rows,
        row.score = m.len_weight * row.len_diff + m.kr_weight * row.kr_diff ∧
        row.len_diff = |row.target_len - row.decoy_len| ∧
        row.kr_diff = |row.target_kr - row.decoy_kr|) ∧
      usedF.length = used.length ∧
      (∀ j, used.getD j false = true → usedF.getD j false = true) ∧
      usedF.count true = used.count true + pairs.length ∧
      List.Forall₂ RowMatches rows pairs := by
  intro ts
  induction ts with
  | nil =>
    intro used hlen pairs rows un usedF h
    have h' : (some ([], [], [], used) :
        Option (List (FastaRecord × FastaRecord) × List MatchRow ×
          List FastaRecord × List Bool)) = some (pairs, rows, un, usedF) := h
    simp only [Option.some_inj, Prod.mk.injEq] at h'
    obtain ⟨h1, h2, h3, h4⟩ := h'
    rw [← h1, ← h2, ← h3, ← h4]
    exact ⟨by simp, by simp, by simp, by simp, by simp,
      by simp, by simp, rfl, fun j hj => hj, by simp, List.Forall₂.nil⟩
  | cons t ts ih =>
    intro used hlen pairs rows un usedF h
    rcases hfm : m.find_best_match used t with ⟨res, used1⟩
    cases res with
    | none =>
      rw [match_all_cons_none hfm] at h
      cases hrec : m.match_all used1 ts with
      | none =>
        rw [hrec] at h
        cases h
      | some q =>
        obtain ⟨p2, r2, u2, f2⟩ := q
        rw [hrec] at h
        have h' : (some (p2, r2, t :: u2, f2) :
            Option (List (FastaRecord × FastaRecord) × List MatchRow ×
              List FastaRecord × List Bool)) = some (pairs, rows, un, usedF) := h
        simp only [Option.some_inj, Prod.mk.injEq] at h'
        obtain ⟨h1, h2, h3, h4⟩ := h'
        rw [← h1, ← h2, ← h3, ← h4]
        have hused1 : used1 = used := (find_best_match_step hfm).1 rfl
        rw [hused1] at hrec
        obtain ⟨ihl, ihr, ihs1, ihs2, ihc, ihw, ihrow, ihfl, ihmono, ihcnt,
          ihf2⟩ := ih used hlen p2 r2 u2 f2 hrec
        refine ⟨by simp; omega, ihr, ihs1.cons t, ihs2.cons₂ t, ?_, ihw,
          ihrow, ihfl, ihmono, ihcnt, ihf2⟩
        intro t'
        have hc' := ihc t'
        cases hbe : (t == t') <;>
          simp only [List.count_cons, hbe, if_true, if_false] <;> omega
    | some tup =>
      obtain ⟨i, s, a, b⟩ := tup
      rw [match_all_cons_some hfm] at h
      cases hd : m.decoys.get? i with
      | none =>
        simp only [hd] at h
        cases h
      | some d =>
        simp only [hd] at h
        cases hrow : mkRow t d s with
        | none =>
          simp only [hrow] at h
          cases h
        | some row =>
          simp only [hrow] at h
          cases hrec : m.match_all used1 ts with
          | none =>
            simp only [hrec] at h
            cases h
          | some q =>
            obtain ⟨p2, r2, u2, f2⟩ := q
            simp only [hrec, Option.some_inj, Prod.mk.injEq] at h
            obtain ⟨h1, h2, h3, h4⟩ := h
            rw [← h1, ← h2, ← h3, ← h4]
            obtain ⟨hi, havi, hset⟩ :=
              (find_best_match_step hfm).2 i s a b rfl
            have hlen1 : used1.length = m.decoys.length := by
              rw [hset, List.length_set, hlen]
            obtain ⟨ihl, ihr, ihs1, ihs2, ihc, ihw, ihrow, ihfl, ihmono,
              ihcnt, ihf2⟩ := ih used1 hlen1 p2 r2 u2 f2 hrec
            have h1fst : (m.find_best_match used t).1 = some (i, s, a, b) := by
              rw [hfm]
            obtain ⟨d', hd', hav', hs', ha', hb', hal', hbk', _⟩ :=
              find_best_match_some h1fst
            have hdd : d' = d := by
              rw [hd] at hd'
              exact (Option.some_inj.1 hd').symm
            rw [hdd] at hs' ha' hb'
            obtain ⟨hrs, hrtl, hrdl, hrtk, hrdk, hrld, hrkd, hrtn, hrdn⟩ :=
              mkRow_spec hrow
            refine ⟨by simp; omega, by simp [ihr], ?_, ihs2.cons t, ?_, ?_,
              ?_, ?_, ?_, ?_, ?_⟩
            · show (t :: p2.map Prod.fst).Sublist (t :: ts)
              exact ihs1.cons₂ t
            · intro t'
              have hc' := ihc t'
              cases hbe : (t == t') <;>
                simp only [List.map_cons, List.count_cons, hbe, if_true,
                  if_false] <;> omega
            · intro p hp
              rcases List.mem_cons.1 hp with rfl | hp
              · constructor
                · show |((d.seq.length : Nat) : Int) -
                      ((t.seq.length : Nat) : Int)| ≤ _
                  rw [ha'] at hal'
                  exact hal'
                · show |((krCount d.seq : Nat) : Int) -
                      ((krCount t.seq : Nat) : Int)| ≤ _
                  rw [hb'] at hbk'
                  exact hbk'
              · exact ihw p hp
            · intro row' hrow'
              rcases List.mem_cons.1 hrow' with rfl | hrow'
              · refine ⟨?_, hrld, hrkd⟩
                rw [hrs, hs']
                show m.len_weight * |((d.seq.length : Nat) : Int) -
                    ((t.seq.length : Nat) : Int)| + m.kr_weight *
                    |((krCount d.seq : Nat) : Int) -
                      ((krCount t.seq : Nat) : Int)| = _
                rw [hrld, hrkd, hrtl, hrdl, hrtk, hrdk,
                  abs_sub_comm ((t.seq.length : Nat) : Int)
                    ((d.seq.length : Nat) : Int),
                  abs_sub_comm ((krCount t.seq : Nat) : Int)
                    ((krCount d.seq : Nat) : Int)]
              · exact ihrow row' hrow'
            · rw [ihfl, hset, List.length_set]
            · intro j hj
              refine ihmono j ?_
              rw [hset]
              exact set_true_getD_mono hj
            · rw [ihcnt, hset, count_set_true (by omega) havi]
              simp
              omega
            · exact List.Forall₂.cons ⟨hrtn, hrdn, hrtl, hrdl, hrtk, hrdk⟩
                ihf2

/-! ### Soundness of the early termination -/

theorem Cov_zero (m : DecoyMatcher) (tL tkr : Int) (used : List Bool)
    (best : Option Cand) : Cov m tL tkr used 0 best := by
  intro dL dKR _ _ hlt
  omega

theorem Cov_step {m : DecoyMatcher} {tL tkr : Int} {used : List Bool}
    {r : Nat} {best : Option Cand}
    (hcov : Cov m tL tkr used r best) :
    Cov m tL tkr used (r + 1) (m.processRadius tL tkr used best r) := by
  intro dL dKR h1 h2 hlt k hk hav
  rcases Nat.lt_succ_iff_lt_or_eq.1 hlt with hlt' | heq
  · obtain ⟨b0, hb0, hle⟩ := hcov dL dKR h1 h2 hlt' k hk hav
    rw [hb0]
    obtain ⟨b, hb, hle'⟩ := processRadius_mono m tL tkr used r b0
    exact ⟨b, hb, le_trans hle' hle⟩
  · obtain ⟨b, hb, hle⟩ := processRadius_hit h1 h2 heq hk hav best
    exact ⟨b, hb, hle⟩

/-- The arithmetic content of the early break: once
`radius > best_score // max(1, min(lw, kw))`, the best score is below
`radius × earlyDivisor`. -/
theorem stop_bound {m : DecoyMatcher} {s : Int} {r0 : Nat}
    (hstop : (r0 : Int) > s.fdiv m.earlyDivisor) :
    s < (r0 : Int) * m.earlyDivisor := by
  have hD : (1 : Int) ≤ m.earlyDivisor := le_max_left _ _
  rw [Int.fdiv_eq_ediv _ (by omega)] at hstop
  exact (Int.ediv_lt_iff_lt_mul (by omega)).1 hstop

/-- Any key sitting at exact deltas `(dL, dKR)` costs at least
`(dL + dKR) × min(lenWeight, krWeight)` when both weights are positive. -/
theorem scoreOf_ge {m : DecoyMatcher} {tL tkr : Int} {k : Int × Int}
    {dL dKR : Nat} (hlw : 1 ≤ m.len_weight) (hkw : 1 ≤ m.kr_weight)
    (h1 : |k.1 - tL| = (dL : Int)) (h2 : |k.2 - tkr| = (dKR : Int)) :
    ((dL + dKR : Nat) : Int) * m.earlyDivisor ≤ m.scoreOf tL tkr k := by
  have hmin : m.earlyDivisor = min m.len_weight m.kr_weight :=
    max_eq_right (le_min hlw hkw)
  unfold scoreOf
  rw [h1, h2, hmin]
  push_cast
  nlinarith [mul_nonneg (sub_nonneg.2 (min_le_left m.len_weight m.kr_weight))
      (by positivity : (0:Int) ≤ (dL : Int)),
    mul_nonneg (sub_nonneg.2 (min_le_right m.len_weight m.kr_weight))
      (by positivity : (0:Int) ≤ (dKR : Int))]

/-- After a stop at radius `r0`, processing any later radius leaves the best
candidate untouched. -/
theorem processRadius_stop_stable {m : DecoyMatcher} {tL tkr : Int}
    {used : List Bool} {r0 : Nat} {b : Cand}
    (hlw : 1 ≤ m.len_weight) (hkw : 1 ≤ m.kr_weight)
    (hcov : Cov m tL tkr used (r0 + 1) (some b))
    (hstop : (r0 : Int) > b.score.fdiv m.earlyDivisor) :
    ∀ r', r0 < r' → m.processRadius tL tkr used (some b) r' = some b := by
  intro r' hr'
  have hsb : b.score < (r0 : Int) * m.earlyDivisor := stop_bound hstop
  have hD1 : (1 : Int) ≤ m.earlyDivisor := le_max_left _ _
  apply processRadius_stable
  intro dL hdLw hdLr hdKRw k hk hav
  have hsum : dL + (r' - dL) = r' := by omega
  rcases shell_delta hk with ⟨h1, h2⟩ | ⟨hdLpos, hdKRpos, ⟨h1, h2⟩ | ⟨h1, h2⟩⟩
  · have hge := scoreOf_ge hlw hkw h1 h2
    rw [hsum] at hge
    have hlt2 : (r0 : Int) * m.earlyDivisor < (r' : Int) * m.earlyDivisor := by
      have : (r0 : Int) < (r' : Int) := by exact_mod_cast hr'
      nlinarith
    intro hlt3
    linarith
  · by_cases hcase : dL ≤ r0
    · obtain ⟨b', hb', hle⟩ := hcov dL 0 hdLw (Nat.zero_le _) (by omega) k
        (mem_shell_axis_len hdLpos h1 h2) hav
      rw [← Option.some_inj.1 hb'] at hle
      exact fun hlt3 => absurd hlt3 (not_lt.2 hle)
    · have h2' : |k.2 - tkr| = ((0 : Nat) : Int) := by simp [h2]
      have hge := scoreOf_ge hlw hkw h1 h2'
      have hlt2 : (r0 : Int) * m.earlyDivisor <
          ((dL + 0 : Nat) : Int) * m.earlyDivisor := by
        have : (r0 : Int) < ((dL + 0 : Nat) : Int) := by
          push_cast; omega
        nlinarith
      intro hlt3
      linarith
  · by_cases hcase : r' - dL ≤ r0
    · obtain ⟨b', hb', hle⟩ := hcov 0 (r' - dL) (Nat.zero_le _) hdKRw
        (by omega) k (mem_shell_axis_kr (by omega) h1 h2) hav
      rw [← Option.some_inj.1 hb'] at hle
      exact fun hlt3 => absurd hlt3 (not_lt.2 hle)
    · have h1' : |k.1 - tL| = ((0 : Nat) : Int) := by simp [h1]
      have hge := scoreOf_ge hlw hkw h1' h2
      have hlt2 : (r0 : Int) * m.earlyDivisor <
          ((0 + (r' - dL) : Nat) : Int) * m.earlyDivisor := by
        have : (r0 : Int) < ((0 + (r' - dL) : Nat) : Int) := by
          push_cast; omega
        nlinarith
      intro hlt3
      linarith

theorem searchLoopFull_stable {m : DecoyMatcher} {tL tkr : Int}
    {used : List Bool} {r0 : Nat} {b : Cand}
    (hlw : 1 ≤ m.len_weight) (hkw : 1 ≤ m.kr_weight)
    (hcov : Cov m tL tkr used (r0 + 1) (some b))
    (hstop : (r0 : Int) > b.score.fdiv m.earlyDivisor) :
    ∀ (radii : List Nat), (∀ r' ∈ radii, r0 < r') →
      m.searchLoopFull tL tkr used radii (some b) = some b := by
  intro radii
  induction radii with
  | nil => intro _; rfl
  | cons r rest ih =>
    intro hgt
    rw [searchLoopFull_cons,
      processRadius_stop_stable hlw hkw hcov hstop r
        (hgt r (List.mem_cons_self r rest))]
    exact ih (fun r' hr' => hgt r' (List.mem_cons_of_mem r hr'))

/-- Nonnegative weights keep every tracked score nonnegative. -/
theorem processRadius_nonneg {m : DecoyMatcher} {tL tkr : Int}
    {used : List Bool} {radius : Nat} {best : Option Cand}
    (hlw : 0 ≤ m.len_weight) (hkw : 0 ≤ m.kr_weight)
    (hbest : ∀ b0, best = some b0 → 0 ≤ b0.score) :
    ∀ b, m.processRadius tL tkr used best radius = some b → 0 ≤ b.score := by
  unfold processRadius
  refine foldl_opt_good _ (fun b => 0 ≤ b.score) _ ?_ best hbest
  intro dL _ best' b hbest' hb
  by_cases hg : m.max_kr_window < radius - dL
  · rw [if_pos hg] at hb; exact hbest' b hb
  · rw [if_neg hg] at hb
    revert hb
    unfold processSplit
    refine foldl_opt_good _ (fun b => 0 ≤ b.score) _ ?_ best' hbest' b
    intro k _ best2 b2 hbest2 hb2
    unfold processKey at hb2
    cases hav : m.availCandidate used k with
    | none => rw [hav] at hb2; exact hbest2 b2 hb2
    | some j =>
      rw [hav] at hb2
      cases best2 with
      | none =>
        rw [← Option.some_inj.1 hb2]
        exact scoreOf_nonneg hlw hkw
      | some b3 =>
        simp only at hb2
        by_cases hlt : m.scoreOf tL tkr k < b3.score
        · rw [if_pos hlt] at hb2
          rw [← Option.some_inj.1 hb2]
          exact scoreOf_nonneg hlw hkw
        · rw [if_neg hlt] at hb2
          exact hbest2 b2 hb2

/-- The radius loop with the early break agrees with the loop that
processes every radius, provided both weights are at least 1. -/
theorem loop_agree (m : DecoyMatcher) (tL tkr : Int) (used : List Bool)
    (hlw : 1 ≤ m.len_weight) (hkw : 1 ≤ m.kr_weight) :
    ∀ (n r : Nat) (best : Option Cand), Cov m tL tkr used r best →
      (∀ b0, best = some b0 → 0 ≤ b0.score) →
      m.searchLoop tL tkr used (List.range' r n) best =
        m.searchLoopFull tL tkr used (List.range' r n) best := by
  intro n
  induction n with
  | zero => intro r best _ _; rfl
  | succ n ih =>
    intro r best hcov hnn
    have hstep : List.range' r (n + 1) = r :: List.range' (r + 1) n := rfl
    rw [hstep, searchLoop_cons, searchLoopFull_cons]
    cases hpr : m.processRadius tL tkr used best r with
    | none =>
      show m.searchLoop tL tkr used (List.range' (r + 1) n) none =
        m.searchLoopFull tL tkr used (List.range' (r + 1) n) none
      refine ih (r + 1) none ?_ (by intro b0 h0; cases h0)
      intro dL dKR h1 h2 hlt k hk hav
      exfalso
      rcases Nat.lt_succ_iff_lt_or_eq.1 hlt with hlt' | heq
      · obtain ⟨b0, hb0, _⟩ := hcov dL dKR h1 h2 hlt' k hk hav
        rw [hb0] at hpr
        obtain ⟨b1, hb1, _⟩ := processRadius_mono m tL tkr used r b0
        rw [hpr] at hb1
        cases hb1
      · obtain ⟨b1, hb1, _⟩ := processRadius_hit h1 h2 heq hk hav best
        rw [hpr] at hb1
        cases hb1
    | some b1 =>
      have hcov1 : Cov m tL tkr used (r + 1) (some b1) := by
        have := Cov_step (r := r) hcov
        rwa [hpr] at this
      have hnn1 : 0 ≤ b1.score :=
        processRadius_nonneg (by omega) (by omega) hnn b1 hpr
      show (if (r : Int) > b1.score.fdiv m.earlyDivisor then some b1
          else m.searchLoop tL tkr used (List.range' (r + 1) n) (some b1)) =
        m.searchLoopFull tL tkr used (List.range' (r + 1) n) (some b1)
      by_cases hstop : (r : Int) > b1.score.fdiv m.earlyDivisor
      · rw [if_pos hstop]
        refine (searchLoopFull_stable hlw hkw hcov1 hstop _ ?_).symm
        intro r' hr'
        exact (List.mem_range'_1.1 hr').1
      · rw [if_neg hstop]
        exact ih (r + 1) (some b1) hcov1
          (by intro b0 h0; rw [← Option.some_inj.1 h0]; exact hnn1)

/-- With positive weights, the early break never changes the result of the
search. -/
theorem find_best_match_eq_full {m : DecoyMatcher} {used : List Bool}
    {t : FastaRecord} (hlw : 0 < m.len_weight) (hkw : 0 < m.kr_weight) :
    m.find_best_match used t = m.find_best_match_full used t := by
  unfold find_best_match find_best_match_full
  rw [List.range_eq_range',
    loop_agree m (t.seq.length : Int) (krCount t.seq : Int) used
      (by omega) (by omega) (max m.max_len_window m.max_kr_window + 1) 0 none
      (Cov_zero m _ _ used none) (by intro b0 h0; cases h0)]

/-! ### Totality of `match_all` under the header precondition -/

theorem mkRow_isSome {t d : FastaRecord} {s : Int}
    (ht : (FastaRecord.name t).isSome) (hd : (FastaRecord.name d).isSome) :
    (mkRow t d s).isSome := by
  unfold mkRow
  obtain ⟨tn, htn⟩ := Option.isSome_iff_exists.1 ht
  obtain ⟨dn, hdn⟩ := Option.isSome_iff_exists.1 hd
  rw [htn, hdn]
  rfl

/-- When every target and every decoy header carries at least one token,
`match_all` cannot fail. -/
theorem match_all_total (m : DecoyMatcher) :
    ∀ (ts : List FastaRecord) (used : List Bool),
      (∀ t ∈ ts, (FastaRecord.name t).isSome) →
      (∀ d ∈ m.decoys, (FastaRecord.name d).isSome) →
      (m.match_all used ts).isSome := by
  intro ts
  induction ts with
  | nil => intro used _ _; rfl
  | cons t ts ih =>
    intro used hts hds
    rcases hfm : m.find_best_match used t with ⟨res, used1⟩
    cases res with
    | none =>
      rw [match_all_cons_none hfm]
      cases hrec : m.match_all used1 ts with
      | none =>
        have hrs := ih used1 (fun t' ht' => hts t' (List.mem_cons_of_mem t ht'))
          hds
        rw [hrec] at hrs
        cases hrs
      | some q =>
        obtain ⟨p2, r2, u2, f2⟩ := q
        rfl
    | some tup =>
      obtain ⟨i, s, a, b⟩ := tup
      rw [match_all_cons_some hfm]
      obtain ⟨hi, _, _⟩ := (find_best_match_step hfm).2 i s a b rfl
      have hget : m.decoys.get? i = some (m.decoys.get ⟨i, hi⟩) :=
        List.get?_eq_get hi
      rw [hget]
      have hdsome : (FastaRecord.name (m.decoys.get ⟨i, hi⟩)).isSome :=
        hds _ (List.get_mem _ _ _)
      have htsome : (FastaRecord.name t).isSome :=
        hts t (List.mem_cons_self t ts)
      show (match mkRow t (m.decoys.get ⟨i, hi⟩) s with
        | none => none
        | some row =>
          match m.match_all used1 ts with
          | none => none
          | some (pairs, rows, un, usedF) =>
            some ((t, m.decoys.get ⟨i, hi⟩) :: pairs, row :: rows, un,
              usedF)).isSome = true
      cases hrowv : mkRow t (m.decoys.get ⟨i, hi⟩) s with
      | none =>
        have hcontra := mkRow_isSome (s := s) htsome hdsome
        rw [hrowv] at hcontra
        cases hcontra
      | some row =>
        cases hrec : m.match_all used1 ts with
        | none =>
          have hrs := ih used1
            (fun t' ht' => hts t' (List.mem_cons_of_mem t ht')) hds
          rw [hrec] at hrs
          cases hrs
        | some q =>
          obtain ⟨p2, r2, u2, f2⟩ := q
          rfl

end DecoyMatcher

/-! ### The claims -/

set_option maxRecDepth 100000

namespace DecoyMatcher

/-- C1 (amended): every pair committed by a run of `match_all` pairs the
target with a decoy whose length and K+R count lie within `maxLenWindow` /
`maxKrWindow` of the target's; and whenever a still-available decoy lies
within both windows AND at combined distance at most
`max(maxLenWindow, maxKrWindow)`, the search reports a winner (the target
cannot land in the unmatched list).  The combined-distance bound is the
amendment: the radius loop stops at `max` of the windows, so a decoy within
both windows but beyond that combined radius is invisible to the search. -/
theorem c1_window_and_completeness :
    (∀ (m : DecoyMatcher) (used : List Bool) (ts : List FastaRecord)
      (pairs : List (FastaRecord × FastaRecord)) (rows : List MatchRow)
      (un : List FastaRecord) (usedF : List Bool),
      used.length = m.decoys.length →
      m.match_all used ts = some (pairs, rows, un, usedF) →
      ∀ p ∈ pairs,
        |(p.2.seq.length : Int) - (p.1.seq.length : Int)| ≤
          (m.max_len_window : Int) ∧
        |(krCount p.2.seq : Int) - (krCount p.1.seq : Int)| ≤
          (m.max_kr_window : Int)) ∧
    (∀ (m : DecoyMatcher) (used : List Bool) (t : FastaRecord) (j : Nat)
      (d : FastaRecord),
      m.decoys.get? j = some d → used.getD j false = false →
      ((recKey d).1 - (t.seq.length : Int)).natAbs ≤ m.max_len_window →
      ((recKey d).2 - (krCount t.seq : Int)).natAbs ≤ m.max_kr_window →
      ((recKey d).1 - (t.seq.length : Int)).natAbs +
        ((recKey d).2 - (krCount t.seq : Int)).natAbs ≤
          max m.max_len_window m.max_kr_window →
      (m.find_best_match used t).1 ≠ none) := by
  constructor
  · intro m used ts pairs rows un usedF hlen hrun
    exact (match_all_spec m ts used hlen pairs rows un usedF hrun).2.2.2.2.2.1
  · intro m used t j d hj hav h1 h2 h3
    exact find_best_match_isSome hj hav h1 h2 h3

/-- C1 counterexample to the claim as stated: `decoyX` (key (3,1)) is
available and lies within both windows of `targetX` (key (2,0)) under
windows (1,1) — each delta is 1 — yet `match_all` leaves `targetX`
unmatched, because the combined distance 2 exceeds the loop bound
`max(1,1) = 1`. -/
theorem c1_counterexample :
    matcherX.match_all matcherX.usedInit [targetX] =
      some ([], [], [targetX], [false]) ∧
    matcherX.decoys.get? 0 = some decoyX ∧
    matcherX.usedInit.getD 0 false = false ∧
    ((recKey decoyX).1 - (targetX.seq.length : Int)).natAbs ≤
      matcherX.max_len_window ∧
    ((recKey decoyX).2 - (krCount targetX.seq : Int)).natAbs ≤
      matcherX.max_kr_window := by
  decide

/-- C1 witness: the amended statement exercised on a concrete run. -/
theorem c1_witness :
    (∀ p ∈ [(targetA, decoyA)],
      |(p.2.seq.length : Int) - (p.1.seq.length : Int)| ≤
        (matcherA.max_len_window : Int) ∧
      |(krCount p.2.seq : Int) - (krCount p.1.seq : Int)| ≤
        (matcherA.max_kr_window : Int)) ∧
    (matcherA.find_best_match matcherA.usedInit targetA).1 ≠ none :=
  ⟨c1_window_and_completeness.1 matcherA matcherA.usedInit [targetA]
      [(targetA, decoyA)] [rowA] [] [true, false] (by decide) (by decide),
    c1_window_and_completeness.2 matcherA matcherA.usedInit targetA 0 decoyA
      (by decide) (by decide) (by decide) (by decide) (by decide)⟩

/-- C2 counterexample to the claim as stated: the used-flag array is NOT
identical before and after a call to the search — `find_best_match` itself
flips the winner's flag (line 121 of `decoy_matcher.py`), so the array
changes across the call. -/
theorem c2_counterexample :
    (matcherA.find_best_match matcherA.usedInit targetA).2 ≠
      matcherA.usedInit := by
  decide

/-- C2 (amended): commitment happens inside `find_best_match` itself, not
in the orchestrator: a failed search leaves the used array untouched, and a
successful search flips exactly the winner's flag, from available to used,
exactly once (the count of set flags grows by exactly one), before
returning. -/
theorem c2_commit_inside_search (m : DecoyMatcher) (used : List Bool)
    (t : FastaRecord) (hlen : used.length = m.decoys.length) :
    ((m.find_best_match used t).1 = none →
      (m.find_best_match used t).2 = used) ∧
    (∀ i s a b, (m.find_best_match used t).1 = some (i, s, a, b) →
      i < used.length ∧ used.getD i false = false ∧
      (m.find_best_match used t).2 = used.set i true ∧
      ((m.find_best_match used t).2).count true = used.count true + 1) := by
  constructor
  · exact find_best_match_none
  · intro i s a b h
    obtain ⟨d, hd, hav, _, _, _, _, _, hset⟩ := find_best_match_some h
    have hi : i < used.length := by
      rcases List.get?_eq_some.1 hd with ⟨hlt, _⟩
      omega
    refine ⟨hi, hav, hset, ?_⟩
    rw [hset]
    exact count_set_true hi hav

/-- C2 witness: the per-call commitment exercised concretely. -/
theorem c2_witness :
    (matcherA.find_best_match matcherA.usedInit targetA).2 =
      matcherA.usedInit.set 0 true ∧
    ((matcherA.find_best_match matcherA.usedInit targetA).2).count true =
      matcherA.usedInit.count true + 1 := by
  have h := (c2_commit_inside_search matcherA matcherA.usedInit targetA
    (by decide)).2 0 0 0 0 (by decide)
  exact ⟨h.2.2.1, h.2.2.2⟩

/-- C3: every `MatchRow` of every run satisfies
`score = lenWeight × lenDiff + krWeight × krDiff` with
`lenDiff = |targetLen − decoyLen|` and `krDiff = |targetKR − decoyKR|`
computed from the paired records; and the score the search returns equals
the weighted distance to the committed decoy's true length and K+R count. -/
theorem c3_score_correctness :
    (∀ (m : DecoyMatcher) (used : List Bool) (ts : List FastaRecord)
      (pairs : List (FastaRecord × FastaRecord)) (rows : List MatchRow)
      (un : List FastaRecord) (usedF : List Bool),
      used.length = m.decoys.length →
      m.match_all used ts = some (pairs, rows, un, usedF) →
      ∀ row ∈ rows,
        row.score = m.len_weight * row.len_diff +
          m.kr_weight * row.kr_diff ∧
        row.len_diff = |row.target_len - row.decoy_len| ∧
        row.kr_diff = |row.target_kr - row.decoy_kr|) ∧
    (∀ (m : DecoyMatcher) (used : List Bool) (t : FastaRecord) (i : Nat)
      (s a b : Int),
      (m.find_best_match used t).1 = some (i, s, a, b) →
      ∃ d, m.decoys.get? i = some d ∧
        s = m.len_weight * |(d.seq.length : Int) - (t.seq.length : Int)| +
            m.kr_weight *
              |(krCount d.seq : Int) - (krCount t.seq : Int)|) := by
  constructor
  · intro m used ts pairs rows un usedF hlen hrun
    exact (match_all_spec m ts used hlen pairs rows un usedF
      hrun).2.2.2.2.2.2.1
  · intro m used t i s a b h
    obtain ⟨d, hd, _, hs, _, _, _, _, _⟩ := find_best_match_some h
    exact ⟨d, hd, hs⟩

/-- C3 witness: score correctness exercised on a concrete run. -/
theorem c3_witness :
    (∀ row ∈ [rowA],
      row.score = matcherA.len_weight * row.len_diff +
        matcherA.kr_weight * row.kr_diff ∧
      row.len_diff = |row.target_len - row.decoy_len| ∧
      row.kr_diff = |row.target_kr - row.decoy_kr|) ∧
    (∃ d, matcherA.decoys.get? 0 = some d ∧
      (0 : Int) = matcherA.len_weight *
          |(d.seq.length : Int) - (targetA.seq.length : Int)| +
        matcherA.kr_weight *
          |(krCount d.seq : Int) - (krCount targetA.seq : Int)|) :=
  ⟨c3_score_correctness.1 matcherA matcherA.usedInit [targetA]
      [(targetA, decoyA)] [rowA] [] [true, false] (by decide) (by decide),
    c3_score_correctness.2 matcherA matcherA.usedInit targetA 0 0 0 0
      (by decide)⟩

/-- C4: uniqueness of assignment.  A winner is available at selection time
and marked used immediately after; over a whole run the used flags evolve
monotonically (available→used, never back), and the number of set flags
grows by exactly the number of committed pairings — so no decoy position
can appear in two pairings. -/
theorem c4_uniqueness :
    (∀ (m : DecoyMatcher) (used : List Bool) (t : FastaRecord) (i : Nat)
      (s a b : Int), used.length = m.decoys.length →
      (m.find_best_match used t).1 = some (i, s, a, b) →
      used.getD i false = false ∧
      ((m.find_best_match used t).2).getD i false = true) ∧
    (∀ (m : DecoyMatcher) (used : List Bool) (ts : List FastaRecord)
      (pairs : List (FastaRecord × FastaRecord)) (rows : List MatchRow)
      (un : List FastaRecord) (usedF : List Bool),
      used.length = m.decoys.length →
      m.match_all used ts = some (pairs, rows, un, usedF) →
      (∀ j, used.getD j false = true → usedF.getD j false = true) ∧
      usedF.count true = used.count true + pairs.length) := by
  constructor
  · intro m used t i s a b hlen h
    obtain ⟨d, hd, hav, _, _, _, _, _, hset⟩ := find_best_match_some h
    have hi : i < used.length := by
      rcases List.get?_eq_some.1 hd with ⟨hlt, _⟩
      omega
    refine ⟨hav, ?_⟩
    rw [hset, List.getD_eq_getElem?_getD, List.getElem?_set]
    simp [hi]
  · intro m used ts pairs rows un usedF hlen hrun
    have h := match_all_spec m ts used hlen pairs rows un usedF hrun
    exact ⟨h.2.2.2.2.2.2.2.2.1, h.2.2.2.2.2.2.2.2.2.1⟩

/-- C4 witness: the flag transition exercised concretely. -/
theorem c4_witness :
    (matcherA.usedInit.getD 0 false = false ∧
      ((matcherA.find_best_match matcherA.usedInit targetA).2).getD 0 false =
        true) ∧
    List.count true [true, false] =
      matcherA.usedInit.count true + [(targetA, decoyA)].length := by
  refine ⟨c4_uniqueness.1 matcherA matcherA.usedInit targetA 0 0 0 0
    (by decide) (by decide), ?_⟩
  exact (c4_uniqueness.2 matcherA matcherA.usedInit [targetA]
    [(targetA, decoyA)] [rowA] [] [true, false] (by decide) (by decide)).2

/-- C5: exact-match preference.  If some still-available decoy has exactly
the target's length and K+R count, the search returns a winner with score 0
whose decoy has exactly the target's key, for any positive weights and any
windows. -/
theorem c5_exact_match_preference (m : DecoyMatcher) (used : List Bool)
    (t : FastaRecord) (j : Nat) (d : FastaRecord)
    (hlw : 0 < m.len_weight) (hkw : 0 < m.kr_weight)
    (hj : m.decoys.get? j = some d) (hav : used.getD j false = false)
    (hL : d.seq.length = t.seq.length)
    (hK : krCount d.seq = krCount t.seq) :
    ∃ i, (m.find_best_match used t).1 = some (i, 0, 0, 0) ∧
      ∃ d2, m.decoys.get? i = some d2 ∧ d2.seq.length = t.seq.length ∧
        krCount d2.seq = krCount t.seq := by
  have hkey : recKey d = ((t.seq.length : Int), (krCount t.seq : Int)) := by
    unfold recKey
    rw [hL, hK]
  obtain ⟨i, hfst, d2, hd2, hk2⟩ := find_best_match_exact hlw hkw hj hav hkey
  refine ⟨i, hfst, d2, hd2, ?_, ?_⟩
  · have h1 : ((d2.seq.length : Nat) : Int) = ((t.seq.length : Nat) : Int) :=
      congrArg Prod.fst hk2
    exact_mod_cast h1
  · have h2 : ((krCount d2.seq : Nat) : Int) = ((krCount t.seq : Nat) : Int) :=
      congrArg Prod.snd hk2
    exact_mod_cast h2

/-- C5 witness: `decoyA` holds exactly `targetA`'s key and wins with
score 0. -/
theorem c5_witness :
    ∃ i, (matcherA.find_best_match matcherA.usedInit targetA).1 =
      some (i, 0, 0, 0) ∧
      ∃ d2, matcherA.decoys.get? i = some d2 ∧
        d2.seq.length = targetA.seq.length ∧
        krCount d2.seq = krCount targetA.seq :=
  c5_exact_match_preference matcherA matcherA.usedInit targetA 0 decoyA
    (by decide) (by decide) (by decide) (by decide) (by decide) (by decide)

/-- C6: early-termination soundness.  With both weights positive, the
search with the early break returns exactly what the same search continued
through every radius up to `max(maxLenWindow, maxKrWindow)` returns — same
winner, same score, same state. -/
theorem c6_early_stop_sound (m : DecoyMatcher) (used : List Bool)
    (t : FastaRecord) (hlw : 0 < m.len_weight) (hkw : 0 < m.kr_weight) :
    m.find_best_match used t = m.find_best_match_full used t :=
  find_best_match_eq_full hlw hkw

/-- C6 witness: the equivalence exercised at a concrete configuration. -/
theorem c6_witness :
    matcherA.find_best_match matcherA.usedInit targetA =
      matcherA.find_best_match_full matcherA.usedInit targetA :=
  c6_early_stop_sound matcherA matcherA.usedInit targetA (by decide)
    (by decide)

/-- C7: the constructor of `DecoyMatcher` performs no validation at all —
an engine with a zero or negative weight is built without any error, and
its early-termination divisor is silently clamped, contradicting the spec's
requirement to fail fast at construction time. -/
theorem c7_constructor_accepts_nonpositive_weights :
    (DecoyMatcher.mk [decoyA] 0 10 2000 2000).len_weight = 0 ∧
    (DecoyMatcher.mk [decoyA] 1 (-5) 2000 2000).kr_weight = -5 ∧
    (DecoyMatcher.mk [decoyA] 0 0 2000 2000).earlyDivisor = 1 := by
  decide

/-- C8: conservation.  `|pairs| + |unmatched| = |targets|`,
`|rows| = |pairs|`, the pairs and unmatched lists are subsequences of the
input target list (input order preserved), every target occurs in the two
outputs exactly as often as in the input — a perfect split — and the
MatchRow list runs pointwise parallel to the pairs list (row `k` reports
exactly the target and decoy of pair `k`), so the rows also preserve the
input target order. -/
theorem c8_conservation (m : DecoyMatcher) (used : List Bool)
    (ts : List FastaRecord) (pairs : List (FastaRecord × FastaRecord))
    (rows : List MatchRow) (un : List FastaRecord) (usedF : List Bool)
    (hlen : used.length = m.decoys.length)
    (hrun : m.match_all used ts = some (pairs, rows, un, usedF)) :
    pairs.length + un.length = ts.length ∧
    rows.length = pairs.length ∧
    (pairs.map Prod.fst).Sublist ts ∧
    un.Sublist ts ∧
    (∀ t', (pairs.map Prod.fst).count t' + un.count t' = ts.count t') ∧
    List.Forall₂ RowMatches rows pairs := by
  have h := match_all_spec m ts used hlen pairs rows un usedF hrun
  exact ⟨h.1, h.2.1, h.2.2.1, h.2.2.2.1, h.2.2.2.2.1,
    h.2.2.2.2.2.2.2.2.2.2⟩

/-- C8 witness: scenario of two identical targets over one decoy — one
matched, one unmatched, perfect split, and the single row parallel to the
single pair. -/
theorem c8_witness :
    ([(targetA, decoyA)].length + [targetA].length =
      [targetA, targetA].length) ∧
    ([(targetA, decoyA)].map Prod.fst).Sublist [targetA, targetA] ∧
    [targetA].Sublist [targetA, targetA] ∧
    (∀ t', ([(targetA, decoyA)].map Prod.fst).count t' +
      [targetA].count t' = [targetA, targetA].count t') ∧
    List.Forall₂ RowMatches [rowA] [(targetA, decoyA)] := by
  have h := c8_conservation matcherB matcherB.usedInit [targetA, targetA]
    [(targetA, decoyA)] [rowA] [targetA] [true] (by decide) (by decide)
  exact ⟨h.1, h.2.2.1, h.2.2.2.1, h.2.2.2.2.1, h.2.2.2.2.2⟩

/-- C9: the record label is partial — a header with no whitespace-delimited
token makes `name` (hence `MatchRow` construction, hence `match_all`) fail;
conversely, when every target and decoy header carries a token, `match_all`
always succeeds, so that is exactly its precondition. -/
theorem c9_header_precondition :
    (∀ (t d : FastaRecord) (s : Int),
      FastaRecord.name t = none ∨ FastaRecord.name d = none →
      DecoyMatcher.mkRow t d s = none) ∧
    FastaRecord.name targetNoName = none ∧
    matcherA.match_all matcherA.usedInit [targetNoName] = none ∧
    (∀ (m : DecoyMatcher) (used : List Bool) (ts : List FastaRecord),
      (∀ t ∈ ts, (FastaRecord.name t).isSome) →
      (∀ d ∈ m.decoys, (FastaRecord.name d).isSome) →
      (m.match_all used ts).isSome) := by
  refine ⟨?_, by decide, by decide,
    fun m used ts hts hds => match_all_total m ts used hts hds⟩
  intro t d s h
  rcases h with h | h
  · exact mkRow_none_left h
  · exact mkRow_none_right h

/-- C9 witness: the partiality and the precondition exercised concretely. -/
theorem c9_witness :
    DecoyMatcher.mkRow targetNoName decoyA 0 = none ∧
    (matcherA.match_all matcherA.usedInit [targetA]).isSome :=
  ⟨c9_header_precondition.1 targetNoName decoyA 0 (Or.inl (by decide)),
    c9_header_precondition.2.2.2 matcherA matcherA.usedInit [targetA]
      (by decide) (by decide)⟩

/-- C10: zero weights are silently tolerated.  The early-termination
divisor `max(1, min(lenWeight, krWeight))` is at least 1 for every
configuration (so the floor division never divides by zero), it collapses
to exactly 1 whenever either weight is non-positive, and a search under a
zero-weight engine still runs to completion and returns a result. -/
theorem c10_zero_weight_safe :
    (∀ m : DecoyMatcher, 1 ≤ m.earlyDivisor) ∧
    (∀ m : DecoyMatcher, min m.len_weight m.kr_weight ≤ 0 →
      m.earlyDivisor = 1) ∧
    matcherZ.earlyDivisor = 1 ∧
    (matcherZ.find_best_match matcherZ.usedInit targetA).1 =
      some (0, 0, 0, 0) := by
  refine ⟨fun m => le_max_left _ _, ?_, by decide, by decide⟩
  intro m h
  exact max_eq_left (le_trans h (by omega))

/-- C10 witness: the clamp exercised at the zero-weight configuration. -/
theorem c10_witness : matcherZ.earlyDivisor = 1 :=
  c10_zero_weight_safe.2.1 matcherZ (by decide)

end DecoyMatcher
